import Mathlib

/-!
Verification of the hex-reader core of the xv repository (src/hex_reader.rs).

The embedding translates `HexReader` and its traversal methods directly from
the Rust source.  Machine integers (`u64`, `u16`, `usize`) are modelled as
`Nat`; all quantities the claims range over stay far below the 64-bit bound,
and where a Rust division or modulo would panic on a zero divisor the
embedding either returns `Option` (for `get_lines_in_file`, where a claim is
about that fault) or is only ever used under the claims' positivity
hypotheses.

The repository sources at hand contain `hex_reader.rs` and
`open_file_dialog.rs` only; `byte_reader.rs` (the `TilingByteReader`) and
`hex_tables.rs` (the static glyph tables) are not among them, so those two
collaborators are modelled from the specification, and each such definition
is marked `Modelled from the spec:` in its doc comment.
-/

/-- Translation of `enum VisualMode` from src/hex_reader.rs. -/
inductive VisualMode where
  | Unicode
  | Ascii
  | Off
deriving DecidableEq, Repr

/-- Modelled from the spec: the `TilingByteReader` of byte_reader.rs is not
among the sources; its observable state for the claims is the byte content
of the open file (`data`, one `Nat` in `[0,256)` per byte, although nothing
below depends on the bound). -/
structure TilingByteReader where
  data : List Nat
deriving DecidableEq, Repr

/-- Modelled from the spec: "current known length (as of last open/reopen)". -/
def TilingByteReader.get_length (r : TilingByteReader) : Nat :=
  r.data.length

/-- Modelled from the spec: "true when the current length requires more than
32 bits to address (i.e., length exceeds the 32-bit unsigned range)". -/
def TilingByteReader.use_large_addresses (r : TilingByteReader) : Bool :=
  decide (4294967295 < r.get_length)

/-- Modelled from the spec: the row loop of `get_window` of byte_reader.rs.
For each row `r` in `[y, y+h)` the byte range `[r*line_width + x,
r*line_width + x + w)` is clipped to `[0, length)` (here `drop`/`take`), and
the loop "stops appending further rows as soon as a row's clipped range is
empty (i.e., its start ≥ length)".  Returns the list of appended rows. -/
def get_window_rows (data : List Nat) (x y w h lw : Nat) : List (List Nat) :=
  match h with
  | 0 => []
  | Nat.succ h' =>
    if data.length ≤ y * lw + x then []
    else ((data.drop (y * lw + x)).take w) :: get_window_rows data x (y + 1) w h' lw

/-- Modelled from the spec: `get_window` appends the clipped rows to the
output buffer in row order (the buffer was cleared by the caller, so the
result is exactly the concatenation of the rows). -/
def TilingByteReader.get_window (r : TilingByteReader) (x y w h lw : Nat) : List Nat :=
  (get_window_rows r.data x y w h lw).flatten

/-- Events received by an `OffsetsVisitor` (src/hex_reader.rs), in order:
the `offset` calls then the final `end` call (`endEv`). -/
inductive OffsetEvent where
  | offset (s : String)
  | endEv
deriving DecidableEq, Repr

/-- Events received by a `HexVisitor` (src/hex_reader.rs). -/
inductive HexEvent where
  | byte (index : Nat)
  | group
  | next_line
  | endEv
deriving DecidableEq, Repr

/-- Events received by a `VisualVisitor` (src/hex_reader.rs). -/
inductive VisualEvent where
  | visual_element (index : Nat)
  | group
  | next_line
  | endEv
deriving DecidableEq, Repr

/-- Translation of `struct HexReader` from src/hex_reader.rs.  The pairs are
`window_pos = (x, y)` and `window_size = (w, h)` as in the source. -/
structure HexReader where
  reader : TilingByteReader
  line_width : Nat
  group : Nat
  window_pos : Nat × Nat
  window_size : Nat × Nat
  capture : List Nat
  vis_mode : VisualMode
deriving DecidableEq, Repr

/-- Translation of `HexReader::new` (the `Ok` payload). -/
def HexReader.new (r : TilingByteReader) : HexReader :=
  { reader := r
    line_width := 16
    group := 8
    window_pos := (0, 0)
    window_size := (16, 32)
    capture := []
    vis_mode := VisualMode.Unicode }

/-- Translation of `HexReader::capture` (named `doCapture` because the Lean
structure field is already called `capture`): clears the capture buffer and
delegates to `get_window` with the current configuration, so the new buffer
does not depend on the old one. -/
def HexReader.doCapture (s : HexReader) : HexReader :=
  { s with
    capture := s.reader.get_window s.window_pos.1 s.window_pos.2 s.window_size.1 s.window_size.2 s.line_width }

/-- Translation of `HexReader::get_row_offsets_width`. -/
def HexReader.get_row_offsets_width (s : HexReader) : Nat :=
  if s.reader.use_large_addresses then 16 + 2 else 8 + 2

/-- Translation of `HexReader::get_lines_in_file`.  The Rust body is the
`u64` division `self.reader.get_length() / self.line_width`, which panics
when `line_width == 0`; the panic is embedded as `none`. -/
def HexReader.get_lines_in_file (s : HexReader) : Option Nat :=
  if s.line_width = 0 then none
  else some (s.reader.get_length / s.line_width)

/-- Hex digit character for `n < 16`, uppercase as Rust's `{:X}`. -/
def hexDigit (n : Nat) : Char :=
  if n < 10 then Char.ofNat (48 + n) else Char.ofNat (55 + n)

/-- The low `d` hex digits of `n`, most significant first, zero-padded to
exactly `d` characters. -/
def hexPadChars : Nat → Nat → List Char
  | 0, _ => []
  | Nat.succ d, n => hexPadChars d (n / 16) ++ [hexDigit (n % 16)]

/-- All hex digits of `n` (no padding; used only when `n` overflows the
requested width, which never happens for in-range addresses). -/
def hexChars (n : Nat) : List Char :=
  (hexPadChars (n + 1) n).dropWhile (fun c => c = '0')

/-- Rust's `format!("0x{:0dX}", n)` for `d = 16` (large addresses) or
`d = 8`: the `0x` prefix followed by `n` zero-padded to `d` hex digits
(`{:0dX}` pads but never truncates, so numbers too wide keep all digits). -/
def formatOffset (large : Bool) (n : Nat) : String :=
  String.mk ('0' :: 'x' ::
    (if n < 16 ^ (if large then 16 else 8)
     then hexPadChars (if large then 16 else 8) n
     else hexChars n))

/-- Translation of `HexReader::visit_row_offsets`: `capture_height` is
`len/w` rounded up by the `if`, the row count is `min h capture_height`, and
row `i` receives the formatted offset `window_pos.y * line_width +
i * line_width`.  The source's two loops (large and small addresses) differ
only in the format width, folded into `formatOffset`.  A zero `w` would
panic in Rust (`usize` division by zero); the claims assume `w ≥ 1`. -/
def HexReader.visit_row_offsets (s : HexReader) : List OffsetEvent :=
  (List.range (min s.window_size.2
      (if (s.capture.length / s.window_size.1) * s.window_size.1 < s.capture.length
       then s.capture.length / s.window_size.1 + 1
       else s.capture.length / s.window_size.1))).map
    (fun i => OffsetEvent.offset (formatOffset s.reader.use_large_addresses
        (s.window_pos.2 * s.line_width + i * s.line_width)))
  ++ [OffsetEvent.endEv]

/-- The loop of `HexReader::visit_hex`: `i` is the intra-line counter (the
source increments it before testing), `line_cap` the window width and `x`
the window's horizontal position.  A zero `group` would panic in Rust on the
modulo; the claims assume `group ≥ 1`. -/
def visitHexGo (x group line_cap : Nat) : List Nat → Nat → List HexEvent
  | [], _ => []
  | b :: rest, i =>
    HexEvent.byte b ::
      (if i + 1 = line_cap then
        HexEvent.next_line :: visitHexGo x group line_cap rest 0
       else if (x + (i + 1)) % group = 0 then
        HexEvent.group :: visitHexGo x group line_cap rest (i + 1)
       else
        visitHexGo x group line_cap rest (i + 1))

/-- Translation of `HexReader::visit_hex`: the loop over the capture buffer
followed by the final `end` call. -/
def HexReader.visit_hex (s : HexReader) : List HexEvent :=
  visitHexGo s.window_pos.1 s.group s.window_size.1 s.capture 0 ++ [HexEvent.endEv]

/-- The loop of `HexReader::visit_visual`, byte for byte the same loop as
`visitHexGo` but calling `visual_element` instead of `byte`. -/
def visitVisualGo (x group line_cap : Nat) : List Nat → Nat → List VisualEvent
  | [], _ => []
  | b :: rest, i =>
    VisualEvent.visual_element b ::
      (if i + 1 = line_cap then
        VisualEvent.next_line :: visitVisualGo x group line_cap rest 0
       else if (x + (i + 1)) % group = 0 then
        VisualEvent.group :: visitVisualGo x group line_cap rest (i + 1)
       else
        visitVisualGo x group line_cap rest (i + 1))

/-- Translation of `HexReader::visit_visual`. -/
def HexReader.visit_visual (s : HexReader) : List VisualEvent :=
  visitVisualGo s.window_pos.1 s.group s.window_size.1 s.capture 0 ++ [VisualEvent.endEv]

/-- Modelled from the spec: the static tables of hex_tables.rs are not among
the sources; they enter as parameters, with an abstract category type `C`
("a classification tag per byte value") and one glyph string per byte value
for each text table. -/
structure GlyphTables (C : Type) where
  UNICODE_TEXT_TABLE : Nat → String
  ASCII_TEXT_TABLE : Nat → String
  BYTE_CATEGORY : Nat → C

/-- Translation of `HexReader::vis_table`: selects the glyph table for the
current visual mode; `Off` selects the Ascii table. -/
def HexReader.vis_table {C : Type} (t : GlyphTables C) (s : HexReader) : Nat → String :=
  match s.vis_mode with
  | VisualMode.Unicode => t.UNICODE_TEXT_TABLE
  | VisualMode.Ascii => t.ASCII_TEXT_TABLE
  | VisualMode.Off => t.ASCII_TEXT_TABLE

/-- Translation of `HexReader::map_visual_table`: applies the callback to
each of the 256 entries of the category table paired with the mode-selected
glyph table. -/
def HexReader.map_visual_table {C T : Type} (t : GlyphTables C) (s : HexReader)
    (callback : C → String → T) : List T :=
  (List.range 256).map (fun i => callback (t.BYTE_CATEGORY i) (HexReader.vis_table t s i))

/-- The events `visit_hex` emits for the single byte `b` standing at 1-based
intra-line position `p`: the byte event, then a line break when `p` is the
window width, otherwise a group separator when `(x + p) % group = 0`. -/
def hexChunk (x group line_cap b p : Nat) : List HexEvent :=
  HexEvent.byte b ::
    (if p = line_cap then [HexEvent.next_line]
     else if (x + p) % group = 0 then [HexEvent.group]
     else [])

/-- Renaming of hex events to visual events: `byte` becomes
`visual_element`, the separators and `end` are kept. -/
def hexToVisual : HexEvent → VisualEvent
  | HexEvent.byte b => VisualEvent.visual_element b
  | HexEvent.group => VisualEvent.group
  | HexEvent.next_line => VisualEvent.next_line
  | HexEvent.endEv => VisualEvent.endEv

/-- The number of rows of the window whose byte range lies fully inside the
file: rows `i < h` with `(y+i)*lw + x + w ≤ len`. -/
def fullRows (len x y w h lw : Nat) : Nat :=
  ((List.range h).filter (fun i => decide ((y + i) * lw + x + w ≤ len))).length

/-- The numeric offsets `visit_row_offsets` walks: the same count as the
emitted events, value `window_pos.y * line_width + i * line_width` each. -/
def rowOffsetValues (s : HexReader) : List Nat :=
  (List.range (min s.window_size.2
      (if (s.capture.length / s.window_size.1) * s.window_size.1 < s.capture.length
       then s.capture.length / s.window_size.1 + 1
       else s.capture.length / s.window_size.1))).map
    (fun i => s.window_pos.2 * s.line_width + i * s.line_width)

/-- A choice of one of the three traversals of the rendering engine. -/
inductive Traversal where
  | offsets
  | hex
  | visual
deriving DecidableEq, Repr

/-- The full event trace a traversal delivers to its visitor. -/
inductive RenderTrace where
  | offsetsT (es : List OffsetEvent)
  | hexT (es : List HexEvent)
  | visualT (es : List VisualEvent)
deriving DecidableEq, Repr

/-- The trace a single traversal produces on reader state `s`. -/
def traceOf (s : HexReader) : Traversal → RenderTrace
  | Traversal.offsets => RenderTrace.offsetsT s.visit_row_offsets
  | Traversal.hex => RenderTrace.hexT s.visit_hex
  | Traversal.visual => RenderTrace.visualT s.visit_visual

/-- Running a sequence of traversals against a reader, threading the reader
state through the calls as the Rust caller does.  The three `visit_*`
methods take `&self`, so a call leaves the state untouched and the next call
starts from the same state. -/
def runTraversals (s : HexReader) : List Traversal → HexReader × List RenderTrace
  | [] => (s, [])
  | t :: ts =>
    let out := traceOf s t
    let rest := runTraversals s ts
    (rest.1, out :: rest.2)

/-- The 16 bytes of the file `"0123456789abcdef"` used by the repository's
own tests. -/
def exData : List Nat :=
  [48, 49, 50, 51, 52, 53, 54, 55, 56, 57, 97, 98, 99, 100, 101, 102]

/-- The reader of the repository's test `hex_view_bigger_than_file`:
window at the origin, 4 columns by 16 rows, line width 4. -/
def exReader : HexReader :=
  { HexReader.new ⟨exData⟩ with window_pos := (0, 0), window_size := (4, 16), line_width := 4 }

/-- A reader whose window is wider than its line width (4 > 1) over a
5-byte file, with the window shifted to column 3. -/
def cexReader : HexReader :=
  { HexReader.new ⟨[10, 11, 12, 13, 14]⟩ with window_pos := (3, 0), window_size := (4, 3), line_width := 1 }

theorem visitVisualGo_eq_map (x group line_cap : Nat) :
    ∀ (l : List Nat) (i : Nat),
      visitVisualGo x group line_cap l i = (visitHexGo x group line_cap l i).map hexToVisual
  | [], _ => rfl
  | b :: rest, i => by
    simp only [visitVisualGo, visitHexGo]
    by_cases h1 : i + 1 = line_cap
    · simp [h1, hexToVisual, visitVisualGo_eq_map x group line_cap rest 0]
    · by_cases h2 : (x + (i + 1)) % group = 0
      · simp [h1, h2, hexToVisual, visitVisualGo_eq_map x group line_cap rest (i + 1)]
      · simp [h1, h2, hexToVisual, visitVisualGo_eq_map x group line_cap rest (i + 1)]

/-- C6: `visit_visual` emits exactly the same event sequence as `visit_hex`
on the same reader state — group separators, line breaks and the final end at
identical points — with `visual_element` events in place of `byte` events
(the renaming `hexToVisual`). -/
theorem visit_visual_eq_map_visit_hex (s : HexReader) :
    s.visit_visual = s.visit_hex.map hexToVisual := by
  simp [HexReader.visit_visual, HexReader.visit_hex, visitVisualGo_eq_map, hexToVisual]

/-- C8: `map_visual_table` with visual mode `Off` returns exactly the same
result as with visual mode `Ascii`, for every glyph table, reader state and
caller-supplied callback: `Off` selects the Ascii table. -/
theorem map_visual_table_off_eq_ascii {C T : Type} (t : GlyphTables C) (s : HexReader)
    (callback : C → String → T) :
    HexReader.map_visual_table t { s with vis_mode := VisualMode.Off } callback =
      HexReader.map_visual_table t { s with vis_mode := VisualMode.Ascii } callback := rfl

/-- C9: running any sequence of the three traversals leaves the reader state
unchanged, and each invocation's trace is a function of the initial reader
state and the traversal kind alone — so the traversals are deterministic,
mutate nothing, and may be repeated or reordered freely over one capture.
(They are plain functions of the state, so they also perform no I/O.) -/
theorem traversals_pure (s : HexReader) (ts : List Traversal) :
    (runTraversals s ts).1 = s ∧ (runTraversals s ts).2 = ts.map (traceOf s) := by
  induction ts with
  | nil => exact ⟨rfl, rfl⟩
  | cons t ts ih => exact ⟨ih.1, by simp only [runTraversals, List.map_cons, ih.2]⟩

/-- C7: `get_lines_in_file` faults (the embedded `none`, a `u64` division by
zero in the source) exactly when `line_width = 0`; it is total precisely
under the precondition `line_width > 0`. -/
theorem get_lines_in_file_none_iff (s : HexReader) :
    s.get_lines_in_file = none ↔ s.line_width = 0 := by
  unfold HexReader.get_lines_in_file
  split <;> simp_all

/-- C4: for every positive `line_width`, `get_lines_in_file` returns the
floor of the file length divided by `line_width`. -/
theorem get_lines_in_file_floor (s : HexReader) (h : 1 ≤ s.line_width) :
    s.get_lines_in_file = some (s.reader.get_length / s.line_width) := by
  unfold HexReader.get_lines_in_file
  rw [if_neg (by omega)]

/-- Witness for C4 at the repository's own test reader: line width 4,
16-byte file, 4 whole lines. -/
theorem get_lines_in_file_floor_witness :
    1 ≤ exReader.line_width ∧
      exReader.get_lines_in_file = some (exReader.reader.get_length / exReader.line_width) :=
  ⟨by decide, get_lines_in_file_floor exReader (by decide)⟩

/-- C10: on an empty capture buffer each of the three traversals emits
exactly one end event and nothing else. -/
theorem empty_capture_only_end (s : HexReader) (hcap : s.capture = [])
    (hw : 1 ≤ s.window_size.1) :
    s.visit_hex = [HexEvent.endEv] ∧ s.visit_visual = [VisualEvent.endEv] ∧
      s.visit_row_offsets = [OffsetEvent.endEv] := by
  refine ⟨?_, ?_, ?_⟩
  · simp [HexReader.visit_hex, hcap, visitHexGo]
  · simp [HexReader.visit_visual, hcap, visitVisualGo]
  · simp [HexReader.visit_row_offsets, hcap]

/-- Witness for C10 at a freshly constructed reader over an empty file:
its capture buffer is empty and its default window width is 16. -/
theorem empty_capture_only_end_witness :
    (HexReader.new ⟨[]⟩).capture = [] ∧ 1 ≤ (HexReader.new ⟨[]⟩).window_size.1 ∧
      ((HexReader.new ⟨[]⟩).visit_hex = [HexEvent.endEv] ∧
        (HexReader.new ⟨[]⟩).visit_visual = [VisualEvent.endEv] ∧
        (HexReader.new ⟨[]⟩).visit_row_offsets = [OffsetEvent.endEv]) :=
  ⟨rfl, by decide, empty_capture_only_end (HexReader.new ⟨[]⟩) rfl (by decide)⟩

theorem visitHexGo_closed (x group w : Nat) (hw : 1 ≤ w) :
    ∀ (l : List Nat) (i : Nat), i < w →
      visitHexGo x group w l i =
        ((List.range l.length).map
          (fun j => hexChunk x group w (l.getD j 0) ((i + j) % w + 1))).flatten
  | [], i, _ => by simp [visitHexGo]
  | b :: rest, i, hi => by
    rw [List.length_cons, List.range_succ_eq_map]
    simp only [List.map_cons, List.map_map, List.flatten_cons, Function.comp_def,
      Nat.succ_eq_add_one, List.getD_cons_zero, List.getD_cons_succ, Nat.add_zero,
      Nat.mod_eq_of_lt hi]
    by_cases h1 : i + 1 = w
    · have hhead : hexChunk x group w b (i + 1) = [HexEvent.byte b, HexEvent.next_line] := by
        simp [hexChunk, h1]
      have hlhs : visitHexGo x group w (b :: rest) i =
          HexEvent.byte b :: HexEvent.next_line :: visitHexGo x group w rest 0 := by
        simp [visitHexGo, h1]
      have htail : ((List.range rest.length).map
          (fun j => hexChunk x group w (rest.getD j 0) ((i + (j + 1)) % w + 1))) =
          ((List.range rest.length).map
          (fun j => hexChunk x group w (rest.getD j 0) ((0 + j) % w + 1))) :=
        List.map_congr_left (fun j _ => by
          rw [show i + (j + 1) = w + j by omega, Nat.add_mod_left, Nat.zero_add])
      rw [hhead, hlhs, htail, visitHexGo_closed x group w hw rest 0 (by omega)]
      simp
    · have hi1 : i + 1 < w := by omega
      have hhead : hexChunk x group w b (i + 1) =
          HexEvent.byte b ::
            (if (x + (i + 1)) % group = 0 then [HexEvent.group] else []) := by
        simp [hexChunk, h1]
      have hlhs : visitHexGo x group w (b :: rest) i =
          HexEvent.byte b ::
            ((if (x + (i + 1)) % group = 0 then [HexEvent.group] else []) ++
              visitHexGo x group w rest (i + 1)) := by
        by_cases h2 : (x + (i + 1)) % group = 0 <;> simp [visitHexGo, h1, h2]
      have htail : ((List.range rest.length).map
          (fun j => hexChunk x group w (rest.getD j 0) ((i + (j + 1)) % w + 1))) =
          ((List.range rest.length).map
          (fun j => hexChunk x group w (rest.getD j 0) ((i + 1 + j) % w + 1))) :=
        List.map_congr_left (fun j _ => by rw [show i + (j + 1) = i + 1 + j by omega])
      rw [hhead, hlhs, htail, visitHexGo_closed x group w hw rest (i + 1) hi1]
      simp

/-- C1: with window width `w ≥ 1` and `group ≥ 1`, `visit_hex` is the
concatenation, over the capture bytes in buffer order, of one `hexChunk`
per byte — the byte event carrying the byte's value, followed by a line
break exactly when the byte's 1-based intra-line position `j % w + 1`
reaches `w`, otherwise by a group separator exactly when
`(window_pos.x + position) % group = 0` — followed by the single end event;
and a chunk that holds a line break never holds a group separator. -/
theorem visit_hex_event_structure (s : HexReader) (hw : 1 ≤ s.window_size.1)
    (hg : 1 ≤ s.group) :
    (s.visit_hex =
      ((List.range s.capture.length).map
        (fun j => hexChunk s.window_pos.1 s.group s.window_size.1
          (s.capture.getD j 0) (j % s.window_size.1 + 1))).flatten
      ++ [HexEvent.endEv]) ∧
    (∀ b p, HexEvent.next_line ∈ hexChunk s.window_pos.1 s.group s.window_size.1 b p →
      HexEvent.group ∉ hexChunk s.window_pos.1 s.group s.window_size.1 b p) := by
  constructor
  · unfold HexReader.visit_hex
    rw [visitHexGo_closed s.window_pos.1 s.group s.window_size.1 hw s.capture 0 (by omega)]
    simp
  · intro b p hmem
    by_cases hp : p = s.window_size.1
    · simp [hexChunk, hp]
    · by_cases h2 : (s.window_pos.1 + p) % s.group = 0 <;>
        simp [hexChunk, hp, h2] at hmem

/-- Witness for C1 at the repository's test reader after capture. -/
theorem visit_hex_event_structure_witness :
    1 ≤ exReader.doCapture.window_size.1 ∧ 1 ≤ exReader.doCapture.group ∧
      ((exReader.doCapture.visit_hex =
        ((List.range exReader.doCapture.capture.length).map
          (fun j => hexChunk exReader.doCapture.window_pos.1 exReader.doCapture.group
            exReader.doCapture.window_size.1 (exReader.doCapture.capture.getD j 0)
            (j % exReader.doCapture.window_size.1 + 1))).flatten
        ++ [HexEvent.endEv]) ∧
      (∀ b p, HexEvent.next_line ∈ hexChunk exReader.doCapture.window_pos.1
          exReader.doCapture.group exReader.doCapture.window_size.1 b p →
        HexEvent.group ∉ hexChunk exReader.doCapture.window_pos.1
          exReader.doCapture.group exReader.doCapture.window_size.1 b p)) :=
  ⟨by decide, by decide, visit_hex_event_structure exReader.doCapture (by decide) (by decide)⟩

theorem ceil_div_if_eq (n w : Nat) (hw : 1 ≤ w) :
    (if n / w * w < n then n / w + 1 else n / w) = (n + w - 1) / w := by
  have hw' : 0 < w := hw
  by_cases hr : n % w = 0
  · obtain ⟨q, hq⟩ := Nat.dvd_of_mod_eq_zero hr
    subst hq
    rw [Nat.mul_div_cancel_left q hw']
    rw [if_neg (by rw [Nat.mul_comm]; omega)]
    rw [show w * q + w - 1 = w * q + (w - 1) by omega]
    rw [Nat.mul_add_div hw', Nat.div_eq_of_lt (by omega), Nat.add_zero]
  · have hlt : n / w * w < n := by
      have hle := Nat.div_mul_le_self n w
      have hdm := Nat.div_add_mod n w
      have hcm : n / w * w = w * (n / w) := Nat.mul_comm _ _
      omega
    rw [if_pos hlt]
    have hrlt : n % w < w := Nat.mod_lt n hw'
    have h3 : n + w - 1 = w * (n / w + 1) + (n % w - 1) := by
      have hdm := Nat.div_add_mod n w
      have hmul : w * (n / w + 1) = w * (n / w) + w := by ring
      have hcm : n / w * w = w * (n / w) := Nat.mul_comm _ _
      omega
    have h4 : (n % w - 1) / w = 0 := Nat.div_eq_of_lt (by omega)
    rw [h3, Nat.mul_add_div hw', h4, Nat.add_zero]

theorem ceil_le_of_le_mul (n w m : Nat) (hw : 1 ≤ w) (h : n ≤ m * w) :
    (n + w - 1) / w ≤ m := by
  have hw' : 0 < w := hw
  have h1 : (n + w - 1) / w < m + 1 := by
    rw [Nat.div_lt_iff_lt_mul hw']
    have : (m + 1) * w = m * w + w := by ring
    omega
  omega

theorem visit_row_offsets_closed (s : HexReader) (hw : 1 ≤ s.window_size.1) :
    s.visit_row_offsets =
      (List.range (min s.window_size.2
          ((s.capture.length + s.window_size.1 - 1) / s.window_size.1))).map
        (fun i => OffsetEvent.offset (formatOffset s.reader.use_large_addresses
            (s.window_pos.2 * s.line_width + i * s.line_width)))
      ++ [OffsetEvent.endEv] := by
  unfold HexReader.visit_row_offsets
  rw [ceil_div_if_eq s.capture.length s.window_size.1 hw]

/-- C3: with window width `w ≥ 1`, `visit_row_offsets` emits exactly
`min(h, ceil(len(capture)/w))` offset events — the `i`-th carrying the
formatted address `window_pos.y * line_width + i * line_width`, so
consecutive offsets rise by exactly `line_width` from
`window_pos.y * line_width` — followed by the single end event. -/
theorem visit_row_offsets_events (s : HexReader) (hw : 1 ≤ s.window_size.1) :
    s.visit_row_offsets =
      (List.range (min s.window_size.2
          ((s.capture.length + s.window_size.1 - 1) / s.window_size.1))).map
        (fun i => OffsetEvent.offset (formatOffset s.reader.use_large_addresses
            (s.window_pos.2 * s.line_width + i * s.line_width)))
      ++ [OffsetEvent.endEv] :=
  visit_row_offsets_closed s hw

/-- Witness for C3 at the repository's test reader after capture. -/
theorem visit_row_offsets_events_witness :
    1 ≤ exReader.doCapture.window_size.1 ∧
      exReader.doCapture.visit_row_offsets =
        (List.range (min exReader.doCapture.window_size.2
            ((exReader.doCapture.capture.length + exReader.doCapture.window_size.1 - 1) /
              exReader.doCapture.window_size.1))).map
          (fun i => OffsetEvent.offset (formatOffset
              exReader.doCapture.reader.use_large_addresses
              (exReader.doCapture.window_pos.2 * exReader.doCapture.line_width +
                i * exReader.doCapture.line_width)))
        ++ [OffsetEvent.endEv] :=
  ⟨by decide, visit_row_offsets_events exReader.doCapture (by decide)⟩
theorem get_window_rows_start_lt (data : List Nat) (x w lw : Nat) :
    ∀ (h y j : Nat), j < (get_window_rows data x y w h lw).length →
      (y + j) * lw + x < data.length
  | 0, y, j => by simp [get_window_rows]
  | Nat.succ h', y, j => by
    unfold get_window_rows
    by_cases hstop : data.length ≤ y * lw + x
    · simp [hstop]
    · simp only [hstop, if_false, List.length_cons]
      intro hj
      match j with
      | 0 => simpa using (by omega : y * lw + x < data.length)
      | j' + 1 =>
        have hrec := get_window_rows_start_lt data x w lw h' (y + 1) j' (by omega)
        have : (y + (j' + 1)) * lw = (y + 1 + j') * lw := by ring
        omega

theorem get_window_rows_row_len (data : List Nat) (x w lw : Nat) :
    ∀ (h y : Nat), ∀ r ∈ get_window_rows data x y w h lw, r.length ≤ w
  | 0, y => by simp [get_window_rows]
  | Nat.succ h', y => by
    unfold get_window_rows
    by_cases hstop : data.length ≤ y * lw + x
    · simp [hstop]
    · simp only [hstop, if_false, List.mem_cons]
      rintro r (rfl | hr)
      · simpa using Nat.le_trans (List.length_take_le _ _) (Nat.le_refl _)
      · exact get_window_rows_row_len data x w lw h' (y + 1) r hr

theorem flatten_length_le (w : Nat) :
    ∀ (l : List (List Nat)), (∀ r ∈ l, r.length ≤ w) → l.flatten.length ≤ l.length * w
  | [] => by simp
  | r :: rest => by
    intro hall
    have h1 : r.length ≤ w := hall r (List.mem_cons_self r rest)
    have h2 := flatten_length_le w rest (fun q hq => hall q (List.mem_cons_of_mem r hq))
    simp only [List.flatten_cons, List.length_append, List.length_cons, Nat.succ_mul]
    omega

theorem get_window_rows_mem_iff (data : List Nat) (x w lw : Nat) :
    ∀ (h y j : Nat), j < h →
      ((y + j) * lw + x < data.length ↔ j < (get_window_rows data x y w h lw).length)
  | 0, y, j => by omega
  | Nat.succ h', y, j => by
    intro hj
    unfold get_window_rows
    by_cases hstop : data.length ≤ y * lw + x
    · simp only [hstop, if_true, List.length_nil]
      constructor
      · intro habs
        exfalso
        have : y * lw ≤ (y + j) * lw := Nat.mul_le_mul_right lw (by omega)
        omega
      · omega
    · simp only [hstop, if_false, List.length_cons]
      match j with
      | 0 => simp only [Nat.add_zero]; omega
      | j' + 1 =>
        have hrec := get_window_rows_mem_iff data x w lw h' (y + 1) j' (by omega)
        have heq : (y + (j' + 1)) * lw = (y + 1 + j') * lw := by ring
        constructor
        · intro hlt
          have := hrec.mp (by omega)
          omega
        · intro hlt
          have := hrec.mpr (by omega)
          omega

theorem get_window_rows_content (data : List Nat) (x w lw : Nat) :
    ∀ (h y j : Nat), j < (get_window_rows data x y w h lw).length →
      (get_window_rows data x y w h lw).getD j [] =
        (data.drop ((y + j) * lw + x)).take w
  | 0, y, j => by simp [get_window_rows]
  | Nat.succ h', y, j => by
    unfold get_window_rows
    by_cases hstop : data.length ≤ y * lw + x
    · simp [hstop]
    · simp only [hstop, if_false, List.length_cons]
      intro hj
      match j with
      | 0 => simp
      | j' + 1 =>
        have hrec := get_window_rows_content data x w lw h' (y + 1) j' (by omega)
        simp only [List.getD_cons_succ]
        rw [hrec]
        congr 2
        ring

theorem get_window_rows_nil (data : List Nat) (x y w h lw : Nat)
    (hstop : data.length ≤ y * lw + x) : get_window_rows data x y w h lw = [] := by
  cases h with
  | zero => rfl
  | succ h' => simp [get_window_rows, hstop]

theorem fullRows_succ (len x y w h lw : Nat) :
    fullRows len x y w (h + 1) lw =
      (if y * lw + x + w ≤ len then 1 else 0) + fullRows len x (y + 1) w h lw := by
  unfold fullRows
  rw [List.range_succ_eq_map, List.filter_cons, List.filter_map]
  have hcomp : ((fun i => decide ((y + i) * lw + x + w ≤ len)) ∘ Nat.succ) =
      (fun i => decide ((y + 1 + i) * lw + x + w ≤ len)) := by
    funext i
    simp only [Function.comp_apply, Nat.succ_eq_add_one]
    congr 1
    rw [show y + (i + 1) = y + 1 + i by omega]
  rw [hcomp]
  by_cases hp : y * lw + x + w ≤ len <;> simp [hp] <;> omega

theorem fullRows_stop_zero (len x y w h lw : Nat) (hw : 1 ≤ w)
    (hstop : len ≤ y * lw + x) : fullRows len x y w h lw = 0 := by
  unfold fullRows
  rw [List.length_eq_zero]
  rw [List.filter_eq_nil_iff]
  intro i _
  simp only [decide_eq_true_eq]
  have : y * lw ≤ (y + i) * lw := Nat.mul_le_mul_right lw (by omega)
  omega

theorem get_window_flatten_len (data : List Nat) (x w lw : Nat)
    (hlw : 1 ≤ lw) (hwlw : w ≤ lw) :
    ∀ (h y : Nat),
      (get_window_rows data x y w h lw).flatten.length =
        fullRows data.length x y w h lw * w +
          (if fullRows data.length x y w h lw < h ∧
              (y + fullRows data.length x y w h lw) * lw + x < data.length
           then data.length - ((y + fullRows data.length x y w h lw) * lw + x)
           else 0)
  | 0, y => by simp [get_window_rows, fullRows]
  | Nat.succ h', y => by
    by_cases hstop : data.length ≤ y * lw + x
    · -- no rows at all
      rw [get_window_rows_nil data x y w (h' + 1) lw hstop]
      have hmul : fullRows data.length x y w (h' + 1) lw * w = 0 := by
        rcases Nat.eq_zero_or_pos w with hw0 | hw1
        · rw [hw0, Nat.mul_zero]
        · rw [fullRows_stop_zero data.length x y w (h' + 1) lw hw1 hstop, Nat.zero_mul]
      have hif : ¬ (fullRows data.length x y w (h' + 1) lw < h' + 1 ∧
          (y + fullRows data.length x y w (h' + 1) lw) * lw + x < data.length) := by
        rintro ⟨-, habs⟩
        have : y * lw ≤ (y + fullRows data.length x y w (h' + 1) lw) * lw :=
          Nat.mul_le_mul_right lw (by omega)
        omega
      rw [if_neg hif, hmul]
      rfl
    · push_neg at hstop
      unfold get_window_rows
      rw [if_neg (by omega)]
      by_cases hfull : y * lw + x + w ≤ data.length
      · -- first row fully in bounds
        have hrow : ((data.drop (y * lw + x)).take w).length = w := by
          rw [List.length_take, List.length_drop]
          omega
        have hk := fullRows_succ data.length x y w h' lw
        rw [if_pos hfull] at hk
        have hrec := get_window_flatten_len data x w lw hlw hwlw h' (y + 1)
        have hidx : (y + (1 + fullRows data.length x (y + 1) w h' lw)) * lw =
            (y + 1 + fullRows data.length x (y + 1) w h' lw) * lw := by ring
        simp only [List.flatten_cons, List.length_append, hrow, hk, hrec]
        rw [show (1 + fullRows data.length x (y + 1) w h' lw) * w =
            w + fullRows data.length x (y + 1) w h' lw * w by ring]
        have hcond : ((1 + fullRows data.length x (y + 1) w h' lw < h' + 1 ∧
            (y + (1 + fullRows data.length x (y + 1) w h' lw)) * lw + x < data.length) ↔
            (fullRows data.length x (y + 1) w h' lw < h' ∧
            (y + 1 + fullRows data.length x (y + 1) w h' lw) * lw + x < data.length)) := by
          constructor
          · rintro ⟨h1, h2⟩; exact ⟨by omega, by omega⟩
          · rintro ⟨h1, h2⟩; exact ⟨by omega, by omega⟩
        by_cases hc : fullRows data.length x (y + 1) w h' lw < h' ∧
            (y + 1 + fullRows data.length x (y + 1) w h' lw) * lw + x < data.length
        · rw [if_pos hc] at *
          rw [if_pos (hcond.mpr hc)]
          rw [hidx]
          omega
        · rw [if_neg hc] at *
          rw [if_neg (fun hcc => hc (hcond.mp hcc))]
          omega
      · -- first row ends past end-of-file: it is the last row
        push_neg at hfull
        have hrow : ((data.drop (y * lw + x)).take w).length = data.length - (y * lw + x) := by
          rw [List.length_take, List.length_drop]
          omega
        have hnext : data.length ≤ (y + 1) * lw + x := by
          have : (y + 1) * lw = y * lw + lw := by ring
          omega
        have hrest : get_window_rows data x (y + 1) w h' lw = [] :=
          get_window_rows_nil data x (y + 1) w h' lw hnext
        have hk0 : fullRows data.length x y w (h' + 1) lw = 0 := by
          unfold fullRows
          rw [List.length_eq_zero, List.filter_eq_nil_iff]
          intro i hi
          simp only [decide_eq_true_eq]
          match i with
          | 0 => simp only [Nat.add_zero]; omega
          | i' + 1 =>
            have h1 : (y + 1) * lw ≤ (y + (i' + 1)) * lw := Nat.mul_le_mul_right lw (by omega)
            omega
        simp only [List.flatten_cons, List.length_append, hrow, hrest, hk0, Nat.add_zero]
        rw [if_pos ⟨Nat.succ_pos h', hstop⟩]
        simp

theorem get_window_flatten_len_full (data : List Nat) (x w lw : Nat) :
    ∀ (h y : Nat), (∀ i, i < h → (y + i) * lw + x + w ≤ data.length) →
      (get_window_rows data x y w h lw).flatten.length = w * h
  | 0, y => by simp [get_window_rows]
  | Nat.succ h', y => by
    intro hfull
    by_cases hstop : data.length ≤ y * lw + x
    · have h0 := hfull 0 (by omega)
      simp only [Nat.add_zero] at h0
      rw [get_window_rows_nil data x y w (h' + 1) lw hstop]
      have hw0 : w = 0 := by omega
      simp [hw0]
    · push_neg at hstop
      unfold get_window_rows
      rw [if_neg (by omega)]
      have h0 := hfull 0 (by omega)
      simp only [Nat.add_zero] at h0
      have hrow : ((data.drop (y * lw + x)).take w).length = w := by
        rw [List.length_take, List.length_drop]
        omega
      have hrec := get_window_flatten_len_full data x w lw h' (y + 1) (fun i hi => by
        have hnext := hfull (i + 1) (by omega)
        have heq : (y + (i + 1)) * lw = (y + 1 + i) * lw := by ring
        omega)
      simp only [List.flatten_cons, List.length_append, hrow, hrec, Nat.succ_eq_add_one]
      ring

/-- Counterexample to C2 as stated: for the 5-byte file with `line_width = 1`
and window `x = 3`, `w = 4`, `h = 3`, the capture loop appends TWO rows that
are both cut short by end-of-file (`[13,14]` then `[14]`), so a partially
out-of-bounds row is not the last row appended, there is no unique "one
partial row", and the claimed total `(fully-in-bounds rows)*w + (prefix of
the one partial row)` — `0*4 + 2` or `0*4 + 1`, whichever row is chosen —
differs from the actual buffer length 3. -/
theorem capture_past_eof_formula_cex :
    cexReader.doCapture.capture = [13, 14, 14] ∧
    get_window_rows cexReader.reader.data cexReader.window_pos.1 cexReader.window_pos.2
      cexReader.window_size.1 cexReader.window_size.2 cexReader.line_width =
        [[13, 14], [14]] ∧
    fullRows cexReader.reader.data.length cexReader.window_pos.1 cexReader.window_pos.2
      cexReader.window_size.1 cexReader.window_size.2 cexReader.line_width = 0 ∧
    cexReader.doCapture.capture.length ≠ 0 * cexReader.window_size.1 + 2 ∧
    cexReader.doCapture.capture.length ≠ 0 * cexReader.window_size.1 + 1 := by
  decide

/-- C2 (amended with the precondition `w ≤ line_width`, which rules out
overlapping rows): after `capture()`, the buffer is the concatenation of the
appended rows; each appended row `j` holds the bytes of
`[(y+j)*line_width + x, (y+j)*line_width + x + w)` clipped to the file; a
row is appended exactly when its start is in bounds (so nothing beyond the
first empty row); a window fully in bounds yields exactly `w*h` bytes; a
window reaching past end-of-file yields `(fully-in-bounds rows)*w` plus the
in-bounds prefix of the single partial row if there is one; and the previous
buffer contents do not influence the result. -/
theorem capture_window_contents (s : HexReader)
    (hlw : 1 ≤ s.line_width) (hwlw : s.window_size.1 ≤ s.line_width) :
    (s.doCapture.capture =
        (get_window_rows s.reader.data s.window_pos.1 s.window_pos.2 s.window_size.1
          s.window_size.2 s.line_width).flatten) ∧
    (∀ j, j < (get_window_rows s.reader.data s.window_pos.1 s.window_pos.2 s.window_size.1
          s.window_size.2 s.line_width).length →
        (get_window_rows s.reader.data s.window_pos.1 s.window_pos.2 s.window_size.1
          s.window_size.2 s.line_width).getD j [] =
          (s.reader.data.drop ((s.window_pos.2 + j) * s.line_width + s.window_pos.1)).take
            s.window_size.1) ∧
    (∀ j, j < s.window_size.2 →
        ((s.window_pos.2 + j) * s.line_width + s.window_pos.1 < s.reader.data.length ↔
          j < (get_window_rows s.reader.data s.window_pos.1 s.window_pos.2 s.window_size.1
            s.window_size.2 s.line_width).length)) ∧
    ((∀ i, i < s.window_size.2 →
        (s.window_pos.2 + i) * s.line_width + s.window_pos.1 + s.window_size.1 ≤
          s.reader.data.length) →
      s.doCapture.capture.length = s.window_size.1 * s.window_size.2) ∧
    (s.doCapture.capture.length =
        fullRows s.reader.data.length s.window_pos.1 s.window_pos.2 s.window_size.1
          s.window_size.2 s.line_width * s.window_size.1 +
          (if fullRows s.reader.data.length s.window_pos.1 s.window_pos.2 s.window_size.1
                s.window_size.2 s.line_width < s.window_size.2 ∧
              (s.window_pos.2 + fullRows s.reader.data.length s.window_pos.1 s.window_pos.2
                  s.window_size.1 s.window_size.2 s.line_width) * s.line_width +
                s.window_pos.1 < s.reader.data.length
           then s.reader.data.length -
              ((s.window_pos.2 + fullRows s.reader.data.length s.window_pos.1 s.window_pos.2
                  s.window_size.1 s.window_size.2 s.line_width) * s.line_width +
                s.window_pos.1)
           else 0)) ∧
    (∀ c, (HexReader.doCapture { s with capture := c }).capture = s.doCapture.capture) := by
  refine ⟨rfl, ?_, ?_, ?_, ?_, fun c => rfl⟩
  · intro j hj
    exact get_window_rows_content s.reader.data s.window_pos.1 s.window_size.1 s.line_width
      s.window_size.2 s.window_pos.2 j hj
  · intro j hj
    exact get_window_rows_mem_iff s.reader.data s.window_pos.1 s.window_size.1 s.line_width
      s.window_size.2 s.window_pos.2 j hj
  · intro hfull
    exact get_window_flatten_len_full s.reader.data s.window_pos.1 s.window_size.1
      s.line_width s.window_size.2 s.window_pos.2 hfull
  · exact get_window_flatten_len s.reader.data s.window_pos.1 s.window_size.1 s.line_width
      hlw hwlw s.window_size.2 s.window_pos.2

/-- Witness for C2 (amended) at the repository's test reader: line width 4,
window 4 by 16 at the origin over a 16-byte file. -/
theorem capture_window_contents_witness :
    1 ≤ exReader.line_width ∧ exReader.window_size.1 ≤ exReader.line_width ∧
    ((exReader.doCapture.capture =
        (get_window_rows exReader.reader.data exReader.window_pos.1 exReader.window_pos.2
          exReader.window_size.1 exReader.window_size.2 exReader.line_width).flatten) ∧
    (∀ j, j < (get_window_rows exReader.reader.data exReader.window_pos.1 exReader.window_pos.2
          exReader.window_size.1 exReader.window_size.2 exReader.line_width).length →
        (get_window_rows exReader.reader.data exReader.window_pos.1 exReader.window_pos.2
          exReader.window_size.1 exReader.window_size.2 exReader.line_width).getD j [] =
          (exReader.reader.data.drop
            ((exReader.window_pos.2 + j) * exReader.line_width + exReader.window_pos.1)).take
            exReader.window_size.1) ∧
    (∀ j, j < exReader.window_size.2 →
        ((exReader.window_pos.2 + j) * exReader.line_width + exReader.window_pos.1 <
            exReader.reader.data.length ↔
          j < (get_window_rows exReader.reader.data exReader.window_pos.1 exReader.window_pos.2
            exReader.window_size.1 exReader.window_size.2 exReader.line_width).length)) ∧
    ((∀ i, i < exReader.window_size.2 →
        (exReader.window_pos.2 + i) * exReader.line_width + exReader.window_pos.1 +
            exReader.window_size.1 ≤ exReader.reader.data.length) →
      exReader.doCapture.capture.length = exReader.window_size.1 * exReader.window_size.2) ∧
    (exReader.doCapture.capture.length =
        fullRows exReader.reader.data.length exReader.window_pos.1 exReader.window_pos.2
          exReader.window_size.1 exReader.window_size.2 exReader.line_width *
            exReader.window_size.1 +
          (if fullRows exReader.reader.data.length exReader.window_pos.1 exReader.window_pos.2
                exReader.window_size.1 exReader.window_size.2 exReader.line_width <
                exReader.window_size.2 ∧
              (exReader.window_pos.2 + fullRows exReader.reader.data.length
                  exReader.window_pos.1 exReader.window_pos.2 exReader.window_size.1
                  exReader.window_size.2 exReader.line_width) * exReader.line_width +
                exReader.window_pos.1 < exReader.reader.data.length
           then exReader.reader.data.length -
              ((exReader.window_pos.2 + fullRows exReader.reader.data.length
                  exReader.window_pos.1 exReader.window_pos.2 exReader.window_size.1
                  exReader.window_size.2 exReader.line_width) * exReader.line_width +
                exReader.window_pos.1)
           else 0)) ∧
    (∀ c, (HexReader.doCapture { exReader with capture := c }).capture =
        exReader.doCapture.capture)) :=
  ⟨by decide, by decide, capture_window_contents exReader (by decide) (by decide)⟩

theorem hexPadChars_length : ∀ (d n : Nat), (hexPadChars d n).length = d
  | 0, _ => rfl
  | d + 1, n => by
    simp [hexPadChars, hexPadChars_length d (n / 16)]

theorem formatOffset_length (large : Bool) (n : Nat)
    (h : n < 16 ^ (if large then 16 else 8)) :
    (formatOffset large n).length = 2 + (if large then 16 else 8) := by
  unfold formatOffset
  rw [if_pos h]
  have hm : (String.mk ('0' :: 'x' :: hexPadChars (if large then 16 else 8) n)).length =
      ('0' :: 'x' :: hexPadChars (if large then 16 else 8) n).length := rfl
  rw [hm, List.length_cons, List.length_cons, hexPadChars_length]
  omega

theorem rowOffset_lt_length (s : HexReader) (hw : 1 ≤ s.window_size.1) (i : Nat)
    (hi : i < min s.window_size.2
        (((s.reader.get_window s.window_pos.1 s.window_pos.2 s.window_size.1 s.window_size.2
            s.line_width).length + s.window_size.1 - 1) / s.window_size.1)) :
    s.window_pos.2 * s.line_width + i * s.line_width < s.reader.data.length := by
  have hrowlen : ∀ r ∈ get_window_rows s.reader.data s.window_pos.1 s.window_pos.2
      s.window_size.1 s.window_size.2 s.line_width, r.length ≤ s.window_size.1 :=
    get_window_rows_row_len s.reader.data s.window_pos.1 s.window_size.1 s.line_width
      s.window_size.2 s.window_pos.2
  have hflat : (s.reader.get_window s.window_pos.1 s.window_pos.2 s.window_size.1
      s.window_size.2 s.line_width).length ≤
      (get_window_rows s.reader.data s.window_pos.1 s.window_pos.2 s.window_size.1
        s.window_size.2 s.line_width).length * s.window_size.1 :=
    flatten_length_le s.window_size.1 _ hrowlen
  have hceil := ceil_le_of_le_mul
    (s.reader.get_window s.window_pos.1 s.window_pos.2 s.window_size.1 s.window_size.2
      s.line_width).length s.window_size.1
    (get_window_rows s.reader.data s.window_pos.1 s.window_pos.2 s.window_size.1
      s.window_size.2 s.line_width).length hw hflat
  have hi2 : i < (get_window_rows s.reader.data s.window_pos.1 s.window_pos.2 s.window_size.1
      s.window_size.2 s.line_width).length := by
    have h1 : i < ((s.reader.get_window s.window_pos.1 s.window_pos.2 s.window_size.1
        s.window_size.2 s.line_width).length + s.window_size.1 - 1) / s.window_size.1 :=
      lt_of_lt_of_le hi (min_le_right _ _)
    omega
  have hstart := get_window_rows_start_lt s.reader.data s.window_pos.1 s.window_size.1
    s.line_width s.window_size.2 s.window_pos.2 i hi2
  have heq : (s.window_pos.2 + i) * s.line_width =
      s.window_pos.2 * s.line_width + i * s.line_width := by ring
  omega

/-- C5: `get_row_offsets_width` is 18 in large-address mode and 10
otherwise; after a capture, every offset string `visit_row_offsets` emits
has exactly that length — the two `0x` characters plus exactly 16 or 8 hex
digits; the event list is the numeric offset sequence `rowOffsetValues`
rendered through `formatOffset`; and the numeric offsets depend only on the
window configuration and capture, not on the address mode or file. -/
theorem row_offsets_width_and_format (s : HexReader)
    (hw : 1 ≤ s.window_size.1) (hlen : s.reader.data.length < 2 ^ 64) :
    (s.get_row_offsets_width = if s.reader.use_large_addresses then 18 else 10) ∧
    (∀ str, OffsetEvent.offset str ∈ s.doCapture.visit_row_offsets →
        str.length = s.get_row_offsets_width) ∧
    (s.visit_row_offsets =
        (rowOffsetValues s).map (fun a =>
          OffsetEvent.offset (formatOffset s.reader.use_large_addresses a)) ++
          [OffsetEvent.endEv]) ∧
    (∀ t : HexReader, t.window_pos = s.window_pos → t.line_width = s.line_width →
        t.window_size = s.window_size → t.capture = s.capture →
        rowOffsetValues t = rowOffsetValues s) := by
  refine ⟨?_, ?_, ?_, ?_⟩
  · unfold HexReader.get_row_offsets_width
    split <;> norm_num
  · intro str hmem
    have hwc : 1 ≤ s.doCapture.window_size.1 := hw
    rw [visit_row_offsets_closed s.doCapture hwc] at hmem
    have hws : s.doCapture.window_size = s.window_size := rfl
    have hwp : s.doCapture.window_pos = s.window_pos := rfl
    have hlw : s.doCapture.line_width = s.line_width := rfl
    have hrd : s.doCapture.reader = s.reader := rfl
    rw [hws, hwp, hlw, hrd] at hmem
    simp only [List.mem_append, List.mem_map, List.mem_range, List.mem_singleton] at hmem
    rcases hmem with ⟨i, hi, heq⟩ | habs
    · simp only [OffsetEvent.offset.injEq] at heq
      have hi' : i < min s.window_size.2
          (((s.reader.get_window s.window_pos.1 s.window_pos.2 s.window_size.1
              s.window_size.2 s.line_width).length + s.window_size.1 - 1) /
            s.window_size.1) := hi
      have ha := rowOffset_lt_length s hw i hi'
      rw [← heq]
      cases hb : s.reader.use_large_addresses with
      | false =>
        have hle : s.reader.data.length ≤ 4294967295 := by
          simp only [TilingByteReader.use_large_addresses, TilingByteReader.get_length,
            decide_eq_false_iff_not, Nat.not_lt] at hb
          exact hb
        rw [formatOffset_length false _ (by
          have h8 : (16:Nat) ^ 8 = 4294967296 := by norm_num
          simp only [Bool.false_eq_true, if_false]
          omega)]
        unfold HexReader.get_row_offsets_width
        rw [hb]
        norm_num
      | true =>
        rw [formatOffset_length true _ (by
          have h16 : (16:Nat) ^ 16 = 2 ^ 64 := by norm_num
          simp only [if_true]
          omega)]
        unfold HexReader.get_row_offsets_width
        rw [hb]
        norm_num
    · exact absurd habs (by simp)
  · unfold HexReader.visit_row_offsets rowOffsetValues
    rw [List.map_map]
    rfl
  · intro t h1 h2 h3 h4
    unfold rowOffsetValues
    rw [h1, h2, h3, h4]

/-- Witness for C5 at the repository's test reader (small file, so small
addresses: width 10, eight hex digits each). -/
theorem row_offsets_width_and_format_witness :
    1 ≤ exReader.window_size.1 ∧ exReader.reader.data.length < 2 ^ 64 ∧
    ((exReader.get_row_offsets_width =
        if exReader.reader.use_large_addresses then 18 else 10) ∧
    (∀ str, OffsetEvent.offset str ∈ exReader.doCapture.visit_row_offsets →
        str.length = exReader.get_row_offsets_width) ∧
    (exReader.visit_row_offsets =
        (rowOffsetValues exReader).map (fun a =>
          OffsetEvent.offset (formatOffset exReader.reader.use_large_addresses a)) ++
          [OffsetEvent.endEv]) ∧
    (∀ t : HexReader, t.window_pos = exReader.window_pos →
        t.line_width = exReader.line_width → t.window_size = exReader.window_size →
        t.capture = exReader.capture → rowOffsetValues t = rowOffsetValues exReader)) :=
  ⟨by decide, by decide, row_offsets_width_and_format exReader (by decide) (by decide)⟩
